import Mathlib

/-!
A shallow embedding, in Lean, of the `si-scale` Rust library:

* `src/prefix/mod.rs` — the `Prefix` enum, its exponents, symbols and parsing;
* `src/base.rs` — the `Base` enum with `integral_exponent_for` and `pow`;
* `src/value.rs` — the `Value` struct, `Value::new_with`, `Value::to_f64`
  and `Value::closest_prefix_for`;
* `src/format.rs` — `separated_float`, `separate_thousands_backward` /
  `separate_thousands_forward`, and the three `format_value!` macro variants;
* `src/lib.rs` — `SIUnitsError`.

Floating-point numbers are embedded as exact rationals (`ℚ`): every f64
arithmetic step used by the library (division by a power of the radix,
multiplication back) is exact field arithmetic, and the floor of the base-10
(resp. base-2) logarithm of a nonzero rational is `Int.log 10` (resp.
`Int.log 2`), composed with floor division to embed
`(log/d).floor = (log.floor).fdiv d`.  A second, explicitly IEEE-flavoured
domain `F64` (with `-0.0`, infinities and NaN, and with the Rust `as i32`
saturating cast and overflow-checked `i32` multiplication) embeds
`Base::integral_exponent_for` exactly as written, for the claims about
special values and panic-freedom.
-/

namespace SiScale

/-- `Base` from `src/base.rs`: the multiplicative radix, 1000 or 1024. -/
inductive Base where
  | B1000
  | B1024
deriving DecidableEq, Fintype

/-- `Prefix` from `src/prefix/mod.rs`: the 17 SI prefixes, `Yocto = -24` up
to `Yotta = 24` with the `Unit = 0` marker. The Rust enum carries the
exponent as its `#[repr(i32)]` discriminant; here `Prefix.exponent` plays
that role. -/
inductive Prefix where
  | Yocto
  | Zepto
  | Atto
  | Femto
  | Pico
  | Nano
  | Micro
  | Milli
  | Unit
  | Kilo
  | Mega
  | Giga
  | Tera
  | Peta
  | Exa
  | Zetta
  | Yotta
deriving DecidableEq, Fintype

/-- The `#[repr(i32)]` discriminant of each `Prefix`, i.e. `prefix as i32`,
also returned by `Prefix::exponent()`. -/
def Prefix.exponent : Prefix → ℤ
  | .Yocto => -24
  | .Zepto => -21
  | .Atto => -18
  | .Femto => -15
  | .Pico => -12
  | .Nano => -9
  | .Micro => -6
  | .Milli => -3
  | .Unit => 0
  | .Kilo => 3
  | .Mega => 6
  | .Giga => 9
  | .Tera => 12
  | .Peta => 15
  | .Exa => 18
  | .Zetta => 21
  | .Yotta => 24

/-- `SIUnitsError` from `src/lib.rs`; the payload string is a list of
characters. -/
inductive SIUnitsError where
  | ExponentParsing (msg : List Char)
deriving DecidableEq

/-- `impl FromStr for Prefix` from `src/prefix/mod.rs`: parse a prefix
name or symbol; any unrecognized string yields
`SIUnitsError::ExponentParsing` carrying the offending text. -/
def Prefix.from_str (s : List Char) : Except SIUnitsError Prefix :=
  if s = String.toList "Yocto" ∨ s = String.toList "yocto" ∨ s = String.toList "y" then
    Except.ok Prefix.Yocto
  else if s = String.toList "Zepto" ∨ s = String.toList "zepto" ∨ s = String.toList "z" then
    Except.ok Prefix.Zepto
  else if s = String.toList "Atto" ∨ s = String.toList "atto" ∨ s = String.toList "a" then
    Except.ok Prefix.Atto
  else if s = String.toList "Femto" ∨ s = String.toList "femto" ∨ s = String.toList "f" then
    Except.ok Prefix.Femto
  else if s = String.toList "Pico" ∨ s = String.toList "pico" ∨ s = String.toList "p" then
    Except.ok Prefix.Pico
  else if s = String.toList "Nano" ∨ s = String.toList "nano" ∨ s = String.toList "n" then
    Except.ok Prefix.Nano
  else if s = String.toList "Micro" ∨ s = String.toList "micro" ∨ s = String.toList "µ" then
    Except.ok Prefix.Micro
  else if s = String.toList "Milli" ∨ s = String.toList "milli" ∨ s = String.toList "m" then
    Except.ok Prefix.Milli
  else if s = String.toList "Kilo" ∨ s = String.toList "kilo" ∨ s = String.toList "k" then
    Except.ok Prefix.Kilo
  else if s = String.toList "Mega" ∨ s = String.toList "mega" ∨ s = String.toList "M" then
    Except.ok Prefix.Mega
  else if s = String.toList "Giga" ∨ s = String.toList "giga" ∨ s = String.toList "G" then
    Except.ok Prefix.Giga
  else if s = String.toList "Tera" ∨ s = String.toList "tera" ∨ s = String.toList "T" then
    Except.ok Prefix.Tera
  else if s = String.toList "Peta" ∨ s = String.toList "peta" ∨ s = String.toList "P" then
    Except.ok Prefix.Peta
  else if s = String.toList "Exa" ∨ s = String.toList "exa" ∨ s = String.toList "E" then
    Except.ok Prefix.Exa
  else if s = String.toList "Zetta" ∨ s = String.toList "zetta" ∨ s = String.toList "Z" then
    Except.ok Prefix.Zetta
  else if s = String.toList "Yotta" ∨ s = String.toList "yotta" ∨ s = String.toList "Y" then
    Except.ok Prefix.Yotta
  else
    Except.error (SIUnitsError.ExponentParsing s)

/-- `impl From<&Prefix> for &str` from `src/prefix/mod.rs`: the display
symbol of a prefix (`Unit` maps to the empty string). -/
def Prefix.symbol : Prefix → List Char
  | .Yocto => String.toList "y"
  | .Zepto => String.toList "z"
  | .Atto => String.toList "a"
  | .Femto => String.toList "f"
  | .Pico => String.toList "p"
  | .Nano => String.toList "n"
  | .Micro => String.toList "µ"
  | .Milli => String.toList "m"
  | .Unit => String.toList ""
  | .Kilo => String.toList "k"
  | .Mega => String.toList "M"
  | .Giga => String.toList "G"
  | .Tera => String.toList "T"
  | .Peta => String.toList "P"
  | .Exa => String.toList "E"
  | .Zetta => String.toList "Z"
  | .Yotta => String.toList "Y"

/-- `impl TryFrom<i32> for Prefix` from `src/prefix/mod.rs`.  Every caller
in `src/` discards the error payload (`unwrap_or` in `value.rs`, `.ok()` in
`allowed.rs`), so the error message is embedded as `none`. -/
def Prefix.try_from (value : ℤ) : Option Prefix :=
  if value = -24 then some Prefix.Yocto
  else if value = -21 then some Prefix.Zepto
  else if value = -18 then some Prefix.Atto
  else if value = -15 then some Prefix.Femto
  else if value = -12 then some Prefix.Pico
  else if value = -9 then some Prefix.Nano
  else if value = -6 then some Prefix.Micro
  else if value = -3 then some Prefix.Milli
  else if value = 0 then some Prefix.Unit
  else if value = 3 then some Prefix.Kilo
  else if value = 6 then some Prefix.Mega
  else if value = 9 then some Prefix.Giga
  else if value = 12 then some Prefix.Tera
  else if value = 15 then some Prefix.Peta
  else if value = 18 then some Prefix.Exa
  else if value = 21 then some Prefix.Zetta
  else if value = 24 then some Prefix.Yotta
  else none

/-- `Base::pow` from `src/base.rs`: `radix ^ (exponent / 3)`.  The source
computes `powf(exponent as f64 / 3.0)`; it is only ever applied to prefix
exponents, which are multiples of 3, where the real division `exponent / 3`
coincides with this integer division and the power is an exact integer
power of the radix. -/
def Base.pow (b : Base) (exponent : ℤ) : ℚ :=
  match b with
  | .B1000 => (1000 : ℚ) ^ (exponent / 3)
  | .B1024 => (1024 : ℚ) ^ (exponent / 3)

/-- `Base::integral_exponent_for` from `src/base.rs` over the exact
rational domain: `0` for zero input, otherwise
`(|x|.log10 / 3).floor * 3` (resp. `log2` and `/ 10` for `B1024`).
`Int.log b |x|` is the floor of the real base-`b` logarithm of `|x|`
(`Real.floor_logb_natCast`), and `⌊r / d⌋ = ⌊r⌋.fdiv d` for a positive
integer `d`, so the floor of the divided logarithm is embedded as a floor
division of `Int.log`.  This idealizes the f64 rounding jitter which the
source explicitly accepts near power boundaries. -/
def Base.integral_exponent_for (b : Base) (x : ℚ) : ℤ :=
  if x = 0 then 0
  else
    match b with
    | .B1000 => (Int.log 10 |x|).fdiv 3 * 3
    | .B1024 => (Int.log 2 |x|).fdiv 10 * 3

/-- `Constraint` from the crate's `prefix` module.  The enum declaration
itself is not among the provided source files; its variants are exactly the
ones matched in `Value::closest_prefix_for` (`src/value.rs`) and named
throughout `src/` (`Constraint::None`, `UnitOnly`, `UnitAndAbove`,
`UnitAndBelow`, `Custom(Vec<Prefix>)`). -/
inductive Constraint where
  | None
  | UnitOnly
  | UnitAndAbove
  | UnitAndBelow
  | Custom (allowed : List Prefix)
deriving DecidableEq

/-- The documented usage precondition on a `Constraint`: a `Custom` list
must be non-empty and sorted ascending by exponent; other variants carry no
precondition. -/
def Constraint.valid : Constraint → Prop
  | .Custom allowed =>
      allowed ≠ [] ∧ allowed.Chain' (fun p q => p.exponent < q.exponent)
  | _ => True

instance : DecidablePred Constraint.valid := fun c =>
  match c with
  | .None => isTrue trivial
  | .UnitOnly => isTrue trivial
  | .UnitAndAbove => isTrue trivial
  | .UnitAndBelow => isTrue trivial
  | .Custom allowed =>
      inferInstanceAs
        (Decidable (allowed ≠ [] ∧
          allowed.Chain' (fun p q : Prefix => p.exponent < q.exponent)))

/-- `i32::clamp(lo, hi)` from the Rust standard library (callers guarantee
`lo ≤ hi`). -/
def clampI (x lo hi : ℤ) : ℤ :=
  max lo (min x hi)

/-- `Value` from `src/value.rs` (the field `prefix` is renamed `pfx`, since
`prefix` is a Lean keyword). -/
structure Value where
  mantissa : ℚ
  pfx : Prefix
  base : Base
deriving DecidableEq

/-- `Value::closest_prefix_for` from `src/value.rs`.  The
`panic!("At least one prefix should be allowed")` on an empty `Custom`
list is embedded as `none`; every other path is `some`. -/
def Value.closest_prefix_for (exponent : ℤ) (constraint : Constraint) : Option Prefix :=
  match constraint with
  | .None =>
      some ((Prefix.try_from
        (clampI exponent Prefix.Yocto.exponent Prefix.Yotta.exponent)).getD Prefix.Unit)
  | .UnitOnly => some Prefix.Unit
  | .UnitAndAbove =>
      some ((Prefix.try_from
        (clampI exponent Prefix.Unit.exponent Prefix.Yotta.exponent)).getD Prefix.Unit)
  | .UnitAndBelow =>
      some ((Prefix.try_from
        (clampI exponent Prefix.Yocto.exponent Prefix.Unit.exponent)).getD Prefix.Unit)
  | .Custom allowed =>
      match allowed with
      | [] => none
      | smallest :: rest =>
          if exponent < smallest.exponent then some smallest
          else
            some ((((smallest :: rest).takeWhile
              (fun p => p.exponent ≤ exponent)).getLast?).getD Prefix.Unit)

/-- `Value::new_with` from `src/value.rs`: exponent, constrained prefix,
then mantissa by division.  `none` exactly when `closest_prefix_for`
panics (empty `Custom` list). -/
def Value.new_with (x : ℚ) (base : Base) (prefix_constraint : Constraint) : Option Value :=
  let exponent : ℤ := base.integral_exponent_for x
  match Value.closest_prefix_for exponent prefix_constraint with
  | none => none
  | some p => some { mantissa := x / base.pow p.exponent, pfx := p, base := base }

/-- `Value::to_f64` from `src/value.rs`: `mantissa * base.pow(exponent)`. -/
def Value.to_f64 (v : Value) : ℚ :=
  v.mantissa * v.base.pow v.pfx.exponent

lemma test_closest_prefix_large_exponent : Value.closest_prefix_for 30 Constraint.None = some Prefix.Yotta := by decide

lemma test_closest_prefix_custom_low : Value.closest_prefix_for (-1)
    (Constraint.Custom [Prefix.Milli, Prefix.Unit, Prefix.Kilo]) = some Prefix.Milli := by
  decide

lemma test_closest_prefix_custom_high : Value.closest_prefix_for 24
    (Constraint.Custom [Prefix.Milli, Prefix.Unit, Prefix.Kilo]) = some Prefix.Kilo := by
  decide

lemma test_new_with_zero : Value.new_with 0 Base.B1000 Constraint.None
    = some { mantissa := 0, pfx := Prefix.Unit, base := Base.B1000 } := by
  simp [Value.new_with, Base.integral_exponent_for, Value.closest_prefix_for,
    clampI, Prefix.try_from, Base.pow, Prefix.exponent]

lemma test_new_with_1234 : Value.new_with 1234 Base.B1000 Constraint.None
    = some { mantissa := 617/500, pfx := Prefix.Kilo, base := Base.B1000 } := by
  simp [Value.new_with, Base.integral_exponent_for, Value.closest_prefix_for,
    clampI, Prefix.try_from, Base.pow, Prefix.exponent, Nat.log]
  norm_num [Int.fdiv]

/-- The IEEE f64 input domain of `Base::integral_exponent_for`: a finite
double is its exact rational value (`finite 0` is `+0.0`), plus `-0.0`,
the two infinities and NaN. -/
inductive F64 where
  | finite (q : ℚ)
  | negZero
  | inf
  | negInf
  | nan
deriving DecidableEq

/-- The Rust comparison `x == 0.0` on an f64: true for `0.0` and `-0.0`,
false for NaN and every other value. -/
def F64.eqZero : F64 → Bool
  | .finite q => q = 0
  | .negZero => true
  | _ => false

/-- The f64 value of `(x.abs().log_b() / d).floor()`: an exact integer for
finite nonzero `x`, `+∞` for `x = ±∞` (since `|±∞| = +∞` and the logarithm
and floor of `+∞` are `+∞`), `-∞` for a zero input (unreachable behind the
`x == 0.0` guard), and NaN for NaN. -/
inductive FloorLog where
  | val (k : ℤ)
  | posInf
  | negInfF
  | nanF
deriving DecidableEq

/-- `(x.abs().log_(logBase)() / d).floor()` over the f64 domain; on the
finite nonzero values it is the exact `⌊log_b |x| / d⌋ = (Int.log b |x|).fdiv d`. -/
def floor_log_div (logBase : ℕ) (d : ℤ) : F64 → FloorLog
  | .finite q => if q = 0 then .negInfF else .val ((Int.log logBase |q|).fdiv d)
  | .negZero => .negInfF
  | .inf => .posInf
  | .negInf => .posInf
  | .nan => .nanF

/-- The Rust `as i32` cast on an f64: saturating at the `i32` bounds
(`-2^31` and `2^31 - 1`), `NaN` to `0`. -/
def as_i32 : FloorLog → ℤ
  | .val k => max (-2147483648) (min 2147483647 k)
  | .posInf => 2147483647
  | .negInfF => -2147483648
  | .nanF => 0

/-- `i32` multiplication by 3 with Rust's arithmetic-overflow check: the
overflow panic raised under debug assertions is `none` (a release build
wraps silently instead). -/
def i32_mul3 (k : ℤ) : Option ℤ :=
  if -2147483648 ≤ k * 3 ∧ k * 3 ≤ 2147483647 then some (k * 3) else none

/-- `Base::integral_exponent_for` from `src/base.rs` over the full f64
domain, with the source's exact arithmetic sequence:
`(x.abs().log10() / 3.0).floor() as i32 * 3` for `B1000`,
`(x.abs().log2() / 10.0).floor() as i32 * 3` for `B1024`, and `0` returned
directly when `x == 0.0`. -/
def Base.integral_exponent_checked (b : Base) (x : F64) : Option ℤ :=
  if x.eqZero then some 0
  else
    match b with
    | .B1000 => i32_mul3 (as_i32 (floor_log_div 10 3 x))
    | .B1024 => i32_mul3 (as_i32 (floor_log_div 2 10 x))

/-- The scaling factor is an integer power of a positive radix, hence
nonzero. -/
lemma Base.pow_ne_zero (b : Base) (e : ℤ) : b.pow e ≠ 0 := by
  cases b <;> exact zpow_ne_zero _ (by norm_num)

/-- Under a valid constraint, prefix resolution always succeeds. -/
lemma closest_prefix_for_valid (e : ℤ) (c : Constraint) (hc : c.valid) :
    ∃ p, Value.closest_prefix_for e c = some p := by
  cases c with
  | None => exact ⟨_, rfl⟩
  | UnitOnly => exact ⟨_, rfl⟩
  | UnitAndAbove => exact ⟨_, rfl⟩
  | UnitAndBelow => exact ⟨_, rfl⟩
  | Custom allowed =>
      obtain ⟨hne, -⟩ := hc
      cases allowed with
      | nil => exact absurd rfl hne
      | cons a rest =>
          by_cases h : e < a.exponent
          · exact ⟨a, by simp [Value.closest_prefix_for, h]⟩
          · exact ⟨(((a :: rest).takeWhile (fun p => p.exponent ≤ e)).getLast?).getD
              Prefix.Unit, by simp [Value.closest_prefix_for, h]⟩

/-- Unfolding `Value::new_with` once the prefix resolution is known. -/
lemma Value.new_with_eq_of_closest (x : ℚ) (b : Base) (c : Constraint) (p : Prefix)
    (hp : Value.closest_prefix_for (b.integral_exponent_for x) c = some p) :
    Value.new_with x b c = some { mantissa := x / b.pow p.exponent, pfx := p, base := b } := by
  simp only [Value.new_with, hp]

/-- C1: for every (finite) input `x`, every base and every valid
constraint, `Value::to_f64 ∘ Value::new_with` returns `x`: the mantissa is
`x` divided by the scaling factor, and `to_f64` multiplies it back.  In the
exact rational embedding the round trip is exact; in f64 it holds within
rounding error, which is the claim. -/
theorem to_f64_new_with_round_trip (x : ℚ) (b : Base) (c : Constraint) (hc : c.valid) :
    Option.map Value.to_f64 (Value.new_with x b c) = some x := by
  obtain ⟨p, hp⟩ := closest_prefix_for_valid (b.integral_exponent_for x) c hc
  rw [Value.new_with_eq_of_closest x b c p hp]
  simp [Value.to_f64, div_mul_cancel₀ _ (Base.pow_ne_zero b p.exponent)]

theorem to_f64_new_with_round_trip_witness :
    Option.map Value.to_f64 (Value.new_with 1234 Base.B1000 Constraint.None) = some 1234 :=
  to_f64_new_with_round_trip 1234 Base.B1000 Constraint.None trivial

/-- C5: resolving a prefix under `Constraint::Custom(vec![])` fails
(panics) for every exponent; under any valid constraint (non-empty
ascending `Custom` list, or any other variant) it never fails. -/
theorem closest_prefix_custom_empty_fails :
    (∀ e : ℤ, Value.closest_prefix_for e (Constraint.Custom []) = none) ∧
    (∀ (e : ℤ) (c : Constraint), c.valid → ∃ p, Value.closest_prefix_for e c = some p) := by
  constructor
  · intro e
    rfl
  · intro e c hc
    exact closest_prefix_for_valid e c hc

theorem closest_prefix_custom_empty_fails_witness :
    Value.closest_prefix_for 3 (Constraint.Custom []) = none ∧
    ∃ p, Value.closest_prefix_for 3 (Constraint.Custom [Prefix.Kilo]) = some p :=
  ⟨closest_prefix_custom_empty_fails.1 3,
   closest_prefix_custom_empty_fails.2 3 (Constraint.Custom [Prefix.Kilo])
     ⟨List.cons_ne_nil _ _, List.chain'_singleton _⟩⟩

/-- C10: parsing a prefix display symbol round-trips for every prefix
except `Unit`; `Unit`'s symbol is the empty string, and parsing the empty
string fails with `ExponentParsing` carrying the offending (empty) text. -/
theorem prefix_symbol_parse_round_trip :
    (∀ p : Prefix, p ≠ Prefix.Unit → Prefix.from_str p.symbol = Except.ok p) ∧
    Prefix.symbol Prefix.Unit = [] ∧
    Prefix.from_str [] = Except.error (SIUnitsError.ExponentParsing []) := by
  refine ⟨?_, rfl, rfl⟩
  intro p hp
  cases p <;> first
    | exact absurd rfl hp
    | rfl

theorem prefix_symbol_parse_round_trip_witness :
    Prefix.from_str (Prefix.symbol Prefix.Kilo) = Except.ok Prefix.Kilo :=
  prefix_symbol_parse_round_trip.1 Prefix.Kilo (by decide)

/-- Every prefix exponent is a multiple of 3 in `[-24, 24]`. -/
lemma Prefix.exponent_grid (p : Prefix) :
    p.exponent % 3 = 0 ∧ -24 ≤ p.exponent ∧ p.exponent ≤ 24 := by
  cases p <;> decide

/-- `TryFrom<i32>` succeeds exactly on the grid, and returns the prefix
with that exponent. -/
lemma Prefix.try_from_exponent (m : ℤ) (h1 : -24 ≤ m) (h2 : m ≤ 24) (h3 : m % 3 = 0) :
    ∃ p, Prefix.try_from m = some p ∧ p.exponent = m := by
  interval_cases m <;> first
    | omega
    | decide

/-- `getD Unit` of a successful `try_from` keeps the clamped exponent. -/
lemma Prefix.try_from_getD_exponent (m : ℤ) (h1 : -24 ≤ m) (h2 : m ≤ 24) (h3 : m % 3 = 0) :
    ((Prefix.try_from m).getD Prefix.Unit).exponent = m := by
  obtain ⟨p, hp, hpe⟩ := Prefix.try_from_exponent m h1 h2 h3
  rw [hp]
  exact hpe

/-- `i32::clamp` keeps the bounds and returns one of the bounds or the
argument itself. -/
lemma clampI_spec (x lo hi : ℤ) (h : lo ≤ hi) :
    lo ≤ clampI x lo hi ∧ clampI x lo hi ≤ hi ∧
      (clampI x lo hi = lo ∨ clampI x lo hi = hi ∨ clampI x lo hi = x) := by
  unfold clampI
  rcases max_cases lo (min x hi) with ⟨h1, h2⟩ | ⟨h1, h2⟩ <;>
    rcases min_cases x hi with ⟨h3, h4⟩ | ⟨h3, h4⟩ <;> rw [h1] <;> omega

/-- The exponent selected by `integral_exponent_for` is a multiple of 3. -/
lemma Base.integral_exponent_for_mul3 (b : Base) (x : ℚ) :
    b.integral_exponent_for x % 3 = 0 := by
  unfold Base.integral_exponent_for
  split
  · rfl
  · cases b <;> exact Int.mul_emod_left _ _

lemma mem_of_getLast?_eq {α : Type} : ∀ {l : List α} {a : α}, l.getLast? = some a → a ∈ l
  | [], a, h => by simp at h
  | [b], a, h => by
      simp only [List.getLast?_singleton, Option.some.injEq] at h
      simp [h]
  | b :: c :: t, a, h => by
      rw [List.getLast?_cons_cons] at h
      exact List.mem_cons_of_mem _ (mem_of_getLast?_eq h)

/-- Under `Custom(l)`, the resolved prefix is a member of `l`. -/
lemma closest_prefix_for_custom_mem (e : ℤ) (l : List Prefix) (p : Prefix)
    (hp : Value.closest_prefix_for e (Constraint.Custom l) = some p) : p ∈ l := by
  cases l with
  | nil => cases hp
  | cons a rest =>
      by_cases h : e < a.exponent
      · simp only [Value.closest_prefix_for, if_pos h, Option.some.injEq] at hp
        simp [← hp]
      · simp only [Value.closest_prefix_for, if_neg h, Option.some.injEq] at hp
        have ha : a.exponent ≤ e := not_lt.mp h
        rw [List.takeWhile_cons_of_pos (by simpa using ha)] at hp
        cases hlast : (a :: List.takeWhile (fun q => decide (q.exponent ≤ e)) rest).getLast? with
        | none => simp [List.getLast?_cons] at hlast
        | some q =>
            rw [hlast] at hp
            simp only [Option.getD_some] at hp
            have hmem : q ∈ a :: List.takeWhile (fun r => decide (r.exponent ≤ e)) rest :=
              mem_of_getLast?_eq hlast
            rw [← hp]
            rcases List.mem_cons.mp hmem with h1 | h1
            · simp [h1]
            · exact List.mem_cons_of_mem _ ((List.takeWhile_prefix _).subset h1)

/-- Unfolding `Value::new_with`: the stored prefix is the resolved one. -/
lemma Value.new_with_pfx (x : ℚ) (b : Base) (c : Constraint) (v : Value)
    (hv : Value.new_with x b c = some v) :
    Value.closest_prefix_for (b.integral_exponent_for x) c = some v.pfx := by
  simp only [Value.new_with] at hv
  cases hcp : Value.closest_prefix_for (b.integral_exponent_for x) c with
  | none => rw [hcp] at hv; cases hv
  | some p =>
      rw [hcp] at hv
      simp only [Option.some.injEq] at hv
      rw [← hv]

/-- C3: building from zero yields mantissa `0`; the prefix resolves to
`Unit` under `None`, `UnitAndAbove` and `UnitAndBelow`; and
`integral_exponent_for` returns exponent `0` directly for `0.0` and
`-0.0` (in the IEEE model, through the `x == 0.0` early return, without
reaching the logarithm). -/
theorem new_with_zero_spec :
    (∀ (b : Base) (c : Constraint), c.valid → ∀ v : Value,
        Value.new_with 0 b c = some v → v.mantissa = 0) ∧
    (∀ b : Base,
        Value.new_with 0 b Constraint.None
            = some { mantissa := 0, pfx := Prefix.Unit, base := b } ∧
        Value.new_with 0 b Constraint.UnitAndAbove
            = some { mantissa := 0, pfx := Prefix.Unit, base := b } ∧
        Value.new_with 0 b Constraint.UnitAndBelow
            = some { mantissa := 0, pfx := Prefix.Unit, base := b }) ∧
    (∀ b : Base, b.integral_exponent_for 0 = 0 ∧
        b.integral_exponent_checked (F64.finite 0) = some 0 ∧
        b.integral_exponent_checked F64.negZero = some 0) := by
  refine ⟨?_, ?_, ?_⟩
  · intro b c hc v hv
    obtain ⟨p, hp⟩ := closest_prefix_for_valid (b.integral_exponent_for 0) c hc
    rw [Value.new_with_eq_of_closest 0 b c p hp] at hv
    obtain rfl := Option.some.inj hv
    simp
  · intro b
    cases b <;> refine ⟨?_, ?_, ?_⟩ <;>
      simp [Value.new_with, Base.integral_exponent_for, Value.closest_prefix_for,
        clampI, Prefix.try_from, Base.pow, Prefix.exponent]
  · intro b
    cases b <;> exact ⟨rfl, rfl, rfl⟩

theorem new_with_zero_spec_witness :
    (({ mantissa := 0, pfx := Prefix.Unit, base := Base.B1000 } : Value)).mantissa = 0 :=
  new_with_zero_spec.1 Base.B1000 Constraint.None trivial _
    (by simp [Value.new_with, Base.integral_exponent_for, Value.closest_prefix_for,
      clampI, Prefix.try_from, Base.pow, Prefix.exponent])

/-- C6: every value constructed by `new_with` under a valid constraint has
a prefix exponent that is a multiple of 3 in `[-24, 24]`, and within the
bounds of the active constraint: `0` for `UnitOnly`, `≥ 0` for
`UnitAndAbove`, `≤ 0` for `UnitAndBelow`, and a member of the list for
`Custom`. -/
theorem constructed_prefix_grid_invariant (x : ℚ) (b : Base) (c : Constraint) (v : Value)
    (hc : c.valid) (hv : Value.new_with x b c = some v) :
    v.pfx.exponent % 3 = 0 ∧ -24 ≤ v.pfx.exponent ∧ v.pfx.exponent ≤ 24 ∧
    (c = Constraint.UnitOnly → v.pfx.exponent = 0) ∧
    (c = Constraint.UnitAndAbove → 0 ≤ v.pfx.exponent) ∧
    (c = Constraint.UnitAndBelow → v.pfx.exponent ≤ 0) ∧
    (∀ l, c = Constraint.Custom l → v.pfx ∈ l) := by
  have hp := Value.new_with_pfx x b c v hv
  obtain ⟨hg1, hg2, hg3⟩ := Prefix.exponent_grid v.pfx
  have he3 := Base.integral_exponent_for_mul3 b x
  refine ⟨hg1, hg2, hg3, ?_, ?_, ?_, ?_⟩
  · rintro rfl
    simp only [Value.closest_prefix_for, Option.some.injEq] at hp
    rw [← hp]
    rfl
  · rintro rfl
    simp only [Value.closest_prefix_for, Option.some.injEq] at hp
    obtain ⟨hc1, hc2, hc3⟩ :=
      clampI_spec (b.integral_exponent_for x) Prefix.Unit.exponent Prefix.Yotta.exponent
        (by decide)
    have hm3 : clampI (b.integral_exponent_for x) Prefix.Unit.exponent
        Prefix.Yotta.exponent % 3 = 0 := by
      rcases hc3 with h | h | h <;> rw [h] <;> first | decide | omega
    rw [← hp, Prefix.try_from_getD_exponent _ (by exact le_trans (by decide) hc1) hc2 hm3]
    exact hc1
  · rintro rfl
    simp only [Value.closest_prefix_for, Option.some.injEq] at hp
    obtain ⟨hc1, hc2, hc3⟩ :=
      clampI_spec (b.integral_exponent_for x) Prefix.Yocto.exponent Prefix.Unit.exponent
        (by decide)
    have hm3 : clampI (b.integral_exponent_for x) Prefix.Yocto.exponent
        Prefix.Unit.exponent % 3 = 0 := by
      rcases hc3 with h | h | h <;> rw [h] <;> first | decide | omega
    rw [← hp, Prefix.try_from_getD_exponent _ hc1 (le_trans hc2 (by decide)) hm3]
    exact hc2
  · rintro l rfl
    exact closest_prefix_for_custom_mem _ l v.pfx hp

theorem constructed_prefix_grid_invariant_witness :
    Prefix.Unit.exponent % 3 = 0 ∧ -24 ≤ Prefix.Unit.exponent ∧ Prefix.Unit.exponent ≤ 24 ∧
    (Constraint.None = Constraint.UnitOnly → Prefix.Unit.exponent = 0) ∧
    (Constraint.None = Constraint.UnitAndAbove → 0 ≤ Prefix.Unit.exponent) ∧
    (Constraint.None = Constraint.UnitAndBelow → Prefix.Unit.exponent ≤ 0) ∧
    (∀ l, Constraint.None = Constraint.Custom l → Prefix.Unit ∈ l) :=
  constructed_prefix_grid_invariant 0 Base.B1000 Constraint.None
    { mantissa := 0, pfx := Prefix.Unit, base := Base.B1000 } trivial
    (by simp [Value.new_with, Base.integral_exponent_for, Value.closest_prefix_for,
      clampI, Prefix.try_from, Base.pow, Prefix.exponent])

/-- The finite f64 range, as a superset in exact rationals: zero, or an
absolute value between the smallest positive subnormal (which is
`≥ 10^-324`) and beyond the largest finite double (which is `< 10^309`).
`-0.0` and NaN are in range; the infinities are not. -/
def F64.in_range : F64 → Prop
  | .finite q => q = 0 ∨ ((10 : ℚ) ^ (-324 : ℤ) ≤ |q| ∧ |q| < (10 : ℚ) ^ (309 : ℤ))
  | .negZero => True
  | .inf => False
  | .negInf => False
  | .nan => True

lemma log10_bounds_in_range {q : ℚ} (h0 : q ≠ 0)
    (h1 : (10 : ℚ) ^ (-324 : ℤ) ≤ |q|) (h2 : |q| < (10 : ℚ) ^ (309 : ℤ)) :
    -324 ≤ Int.log 10 |q| ∧ Int.log 10 |q| < 309 := by
  have hq : (0 : ℚ) < |q| := abs_pos.mpr h0
  constructor
  · refine (Int.zpow_le_iff_le_log (by norm_num) hq).mp ?_
    calc ((10 : ℕ) : ℚ) ^ (-324 : ℤ) = (10 : ℚ) ^ (-324 : ℤ) := by norm_num
    _ ≤ |q| := h1
  · refine (Int.lt_zpow_iff_log_lt (by norm_num) hq).mp ?_
    calc |q| < (10 : ℚ) ^ (309 : ℤ) := h2
    _ = ((10 : ℕ) : ℚ) ^ (309 : ℤ) := by norm_num

lemma log2_bounds_in_range {q : ℚ} (h0 : q ≠ 0)
    (h1 : (10 : ℚ) ^ (-324 : ℤ) ≤ |q|) (h2 : |q| < (10 : ℚ) ^ (309 : ℤ)) :
    -1077 ≤ Int.log 2 |q| ∧ Int.log 2 |q| < 1027 := by
  have hq : (0 : ℚ) < |q| := abs_pos.mpr h0
  constructor
  · refine (Int.zpow_le_iff_le_log (by norm_num) hq).mp ?_
    calc ((2 : ℕ) : ℚ) ^ (-1077 : ℤ) ≤ (10 : ℚ) ^ (-324 : ℤ) := by norm_num
    _ ≤ |q| := h1
  · refine (Int.lt_zpow_iff_log_lt (by norm_num) hq).mp ?_
    calc |q| < (10 : ℚ) ^ (309 : ℤ) := h2
    _ ≤ ((2 : ℕ) : ℚ) ^ (1027 : ℤ) := by norm_num

/-- Within `i32` bounds the saturating cast is the identity and the
checked multiplication succeeds. -/
lemma as_i32_i32_mul3_of_bounds {k : ℤ} (h1 : -1100 ≤ k) (h2 : k ≤ 1100) :
    as_i32 (FloorLog.val k) = k ∧ i32_mul3 k = some (k * 3) := by
  constructor
  · simp only [as_i32]
    omega
  · have h : -2147483648 ≤ k * 3 ∧ k * 3 ≤ 2147483647 := by omega
    simp [i32_mul3, h]

/-- On every non-infinite, f64-representable input, the exponent
computation (with the source's checked `as i32 * 3` arithmetic) succeeds. -/
lemma integral_exponent_checked_total (b : Base) (x : F64) (hx : x.in_range) :
    ∃ e : ℤ, b.integral_exponent_checked x = some e := by
  cases x with
  | inf => exact hx.elim
  | negInf => exact hx.elim
  | negZero => exact ⟨0, rfl⟩
  | nan =>
      refine ⟨0, ?_⟩
      cases b <;> rfl
  | finite q =>
      rcases hx with rfl | ⟨h1, h2⟩
      · exact ⟨0, by cases b <;> simp [Base.integral_exponent_checked, F64.eqZero]⟩
      · have h0 : q ≠ 0 := by
          intro h
          rw [h] at h1
          simp only [abs_zero] at h1
          have : (0 : ℚ) < (10 : ℚ) ^ (-324 : ℤ) := by positivity
          linarith
        have heq : F64.eqZero (F64.finite q) = false := by
          simp [F64.eqZero, h0]
        cases b with
        | B1000 =>
            obtain ⟨hl, hu⟩ := log10_bounds_in_range h0 h1 h2
            have hk : (Int.log 10 |q|).fdiv 3 = Int.log 10 |q| / 3 :=
              Int.fdiv_eq_ediv _ (by norm_num)
            obtain ⟨hc1, hc2⟩ :=
              as_i32_i32_mul3_of_bounds (k := (Int.log 10 |q|).fdiv 3)
                (by rw [hk]; omega) (by rw [hk]; omega)
            refine ⟨(Int.log 10 |q|).fdiv 3 * 3, ?_⟩
            simp only [Base.integral_exponent_checked, heq, Bool.false_eq_true, if_false,
              floor_log_div, if_neg h0, hc1, hc2]
        | B1024 =>
            obtain ⟨hl, hu⟩ := log2_bounds_in_range h0 h1 h2
            have hk : (Int.log 2 |q|).fdiv 10 = Int.log 2 |q| / 10 :=
              Int.fdiv_eq_ediv _ (by norm_num)
            obtain ⟨hc1, hc2⟩ :=
              as_i32_i32_mul3_of_bounds (k := (Int.log 2 |q|).fdiv 10)
                (by rw [hk]; omega) (by rw [hk]; omega)
            refine ⟨(Int.log 2 |q|).fdiv 10 * 3, ?_⟩
            simp only [Base.integral_exponent_checked, heq, Bool.false_eq_true, if_false,
              floor_log_div, if_neg h0, hc1, hc2]

/-- C2 (counterexample): on the input `+∞` — which the claim explicitly
includes — `Base::integral_exponent_for` does not return a value: the
`floor()` of the infinite logarithm saturates to `i32::MAX` under
`as i32`, and the subsequent `* 3` overflows `i32` (a panic under debug
assertions), for both bases.  So the numeric pipeline is not total on the
infinities. -/
theorem integral_exponent_checked_inf_panics :
    Base.B1000.integral_exponent_checked F64.inf = none ∧
    Base.B1024.integral_exponent_checked F64.inf = none := by
  constructor <;> rfl

/-- C2 (amended): for every non-infinite f64 input (`0.0`, `-0.0`,
subnormals, magnitudes up to the largest finite double, NaN) and every
valid constraint, the numeric pipeline never fails: the checked exponent
computation succeeds and the constrained prefix resolution succeeds.
Out-of-range magnitudes are clamped to the extreme prefixes (`Yotta` /
`Yocto` for exponents beyond `±24` under `Constraint::None`).  On `±∞`
the `* 3` multiplication overflows `i32` (see the counterexample), so the
infinities must be excluded. -/
theorem pipeline_total_non_infinite :
    (∀ (b : Base) (x : F64) (c : Constraint), x.in_range → c.valid →
        ∃ e p, b.integral_exponent_checked x = some e ∧
          Value.closest_prefix_for e c = some p) ∧
    (∀ e : ℤ, 24 ≤ e → Value.closest_prefix_for e Constraint.None = some Prefix.Yotta) ∧
    (∀ e : ℤ, e ≤ -24 → Value.closest_prefix_for e Constraint.None = some Prefix.Yocto) := by
  refine ⟨?_, ?_, ?_⟩
  · intro b x c hx hc
    obtain ⟨e, he⟩ := integral_exponent_checked_total b x hx
    obtain ⟨p, hp⟩ := closest_prefix_for_valid e c hc
    exact ⟨e, p, he, hp⟩
  · intro e he
    simp only [Value.closest_prefix_for]
    rw [show clampI e Prefix.Yocto.exponent Prefix.Yotta.exponent = 24 from by
      show clampI e (-24) 24 = 24
      unfold clampI
      omega]
    rfl
  · intro e he
    simp only [Value.closest_prefix_for]
    rw [show clampI e Prefix.Yocto.exponent Prefix.Yotta.exponent = -24 from by
      show clampI e (-24) 24 = -24
      unfold clampI
      omega]
    rfl

theorem pipeline_total_non_infinite_witness :
    ∃ e p, Base.B1000.integral_exponent_checked (F64.finite 0) = some e ∧
      Value.closest_prefix_for e Constraint.None = some p :=
  pipeline_total_non_infinite.1 Base.B1000 (F64.finite 0) Constraint.None (Or.inl rfl) trivial

/-- The shared loop body of `separate_thousands_backward` and
`separate_thousands_forward` in `src/format.rs`: walk the characters,
keep a running count `pos` of ASCII digits seen, and before a digit whose
current count satisfies `pos > 1 && pos % 3 == 0` push the separator;
non-digit characters are pushed unchanged and leave `pos` untouched. -/
def sep_loop (separator : Char) : ℕ → List Char → List Char
  | _, [] => []
  | pos, ch :: rest =>
      if ch.isDigit then
        if 1 < pos ∧ pos % 3 = 0 then separator :: ch :: sep_loop separator (pos + 1) rest
        else ch :: sep_loop separator (pos + 1) rest
      else ch :: sep_loop separator pos rest

/-- `separate_thousands_backward` from `src/format.rs`: run the loop over
the reversed characters and reverse the result. -/
def separate_thousands_backward (input : List Char) (separator : Char) : List Char :=
  (sep_loop separator 0 input.reverse).reverse

/-- `separate_thousands_forward` from `src/format.rs`. -/
def separate_thousands_forward (input : List Char) (separator : Char) : List Char :=
  sep_loop separator 0 input

/-- `separated_float` from `src/format.rs`: split at the first `'.'` (or
the end), group the integer part right-to-left and the fractional part
(which keeps the dot) left-to-right, and concatenate. -/
def separated_float (input : List Char) (separator : Char) : List Char :=
  let int_part := input.takeWhile (fun ch => ch ≠ '.')
  let frac_part := input.dropWhile (fun ch => ch ≠ '.')
  separate_thousands_backward int_part separator ++
    separate_thousands_forward frac_part separator

lemma test_separated_float_basic : separated_float (String.toList "123456.123456") '_'
    = String.toList "123_456.123_456" := by decide

lemma test_separated_float_signs : separated_float (String.toList "--1234567.1234567++") '_'
    = String.toList "--1_234_567.123_456_7++" := by decide

lemma test_separated_float_spec_example : separated_float (String.toList "1234.5678") '_'
    = String.toList "1_234.567_8" := by decide

/-- Filtering the separator back out of the loop output recovers the
input, provided the input itself does not contain the separator. -/
lemma sep_loop_filter (separator : Char) :
    ∀ (pos : ℕ) (cs : List Char), separator ∉ cs →
      (sep_loop separator pos cs).filter (fun c => c ≠ separator) = cs
  | _, [], _ => rfl
  | pos, ch :: rest, h => by
      have hch : ch ≠ separator := fun hc => h (hc ▸ List.mem_cons_self ch rest)
      have hrest : separator ∉ rest := fun hr => h (List.mem_cons_of_mem _ hr)
      have ih1 := sep_loop_filter separator (pos + 1) rest hrest
      have ih2 := sep_loop_filter separator pos rest hrest
      simp only [ne_eq, decide_not] at ih1 ih2
      by_cases hd : ch.isDigit
      · by_cases hc : 1 < pos ∧ pos % 3 = 0
        · simp only [sep_loop, if_pos hd, if_pos hc, List.filter]
          simp [hch, ih1]
        · simp only [sep_loop, if_pos hd, if_neg hc, List.filter]
          simp [hch, ih1]
      · simp only [sep_loop, if_neg hd, List.filter]
        simp [hch, ih2]

/-- Filtering the separator out of `separated_float` recovers the input. -/
lemma separated_float_filter (input : List Char) (separator : Char)
    (h : separator ∉ input) :
    (separated_float input separator).filter (fun c => c ≠ separator) = input := by
  have hint : separator ∉ input.takeWhile (fun ch => ch ≠ '.') :=
    fun hm => h ((List.takeWhile_prefix _).subset hm)
  have hfrac : separator ∉ input.dropWhile (fun ch => ch ≠ '.') :=
    fun hm => h ((List.dropWhile_suffix _).subset hm)
  have hrev : separator ∉ (input.takeWhile (fun ch => ch ≠ '.')).reverse := by
    simpa using hint
  simp only [separated_float, separate_thousands_backward, separate_thousands_forward,
    List.filter_append, List.filter_reverse, sep_loop_filter separator 0 _ hrev,
    sep_loop_filter separator 0 _ hfrac, List.reverse_reverse]
  exact List.takeWhile_append_dropWhile _ _

/-- C8: grouping is idempotent modulo separator removal: for an input
without occurrences of the separator, removing every separator character
from the grouped output yields the input back, and re-grouping that
stripped string yields the same grouped result. -/
theorem grouping_idempotent_mod_separators (input : List Char) (separator : Char)
    (h : separator ∉ input) :
    (separated_float input separator).filter (fun c => c ≠ separator) = input ∧
    separated_float
        ((separated_float input separator).filter (fun c => c ≠ separator)) separator
      = separated_float input separator := by
  have h1 := separated_float_filter input separator h
  exact ⟨h1, by rw [h1]⟩

theorem grouping_idempotent_mod_separators_witness :
    (separated_float (String.toList "1234.5678") '_').filter (fun c => c ≠ '_')
        = String.toList "1234.5678" ∧
    separated_float
        ((separated_float (String.toList "1234.5678") '_').filter (fun c => c ≠ '_')) '_'
      = separated_float (String.toList "1234.5678") '_' :=
  grouping_idempotent_mod_separators (String.toList "1234.5678") '_' (by decide)

/-- A non-digit character passes through the grouping loop unchanged and
does not advance the digit counter. -/
lemma sep_loop_nondigit (separator : Char) (pos : ℕ) (ch : Char) (rest : List Char)
    (h : ch.isDigit = false) :
    sep_loop separator pos (ch :: rest) = ch :: sep_loop separator pos rest := by
  simp [sep_loop, h]

/-- Starting the loop at count `0`, the first output character is the
first input character: the separator guard `pos > 1` cannot fire. -/
lemma sep_loop_zero_head? (separator : Char) (cs : List Char) :
    (sep_loop separator 0 cs).head? = cs.head? := by
  cases cs with
  | nil => rfl
  | cons ch rest =>
      by_cases hd : ch.isDigit <;> simp [sep_loop, hd]

/-- Wherever the loop output splits around an (inserted) separator, at
least three digits were already consumed: separators only appear before a
digit whose running count is `> 1` and divisible by 3. -/
lemma sep_loop_sep_count (separator : Char) :
    ∀ (pos : ℕ) (cs : List Char), separator ∉ cs →
      ∀ (l r : List Char), sep_loop separator pos cs = l ++ separator :: r →
        3 ≤ pos + (l.filter (fun c => c.isDigit)).length
  | pos, [], h, l, r, heq => by
      simp only [sep_loop] at heq
      cases l <;> simp at heq
  | pos, ch :: rest, h, l, r, heq => by
      have hch : ch ≠ separator := fun hc => h (hc ▸ List.mem_cons_self ch rest)
      have hrest : separator ∉ rest := fun hr => h (List.mem_cons_of_mem _ hr)
      by_cases hd : ch.isDigit
      · by_cases hc : 1 < pos ∧ pos % 3 = 0
        · simp only [sep_loop, if_pos hd, if_pos hc] at heq
          cases l with
          | nil =>
              simp only [List.filter_nil, List.length_nil]
              omega
          | cons c0 l' =>
              rw [List.cons_append] at heq
              obtain ⟨hc0, heq⟩ := List.cons.inj heq
              cases l' with
              | nil =>
                  simp only [List.nil_append] at heq
                  obtain ⟨hch2, -⟩ := List.cons.inj heq
                  exact absurd hch2 hch
              | cons c1 l'' =>
                  rw [List.cons_append] at heq
                  obtain ⟨hc1, heq⟩ := List.cons.inj heq
                  have ih := sep_loop_sep_count separator (pos + 1) rest hrest l'' r heq
                  subst hc0
                  subst hc1
                  by_cases hs : separator.isDigit <;>
                    simp only [List.filter, hs, hd, List.length_cons] <;> omega
        · simp only [sep_loop, if_pos hd, if_neg hc] at heq
          cases l with
          | nil =>
              simp only [List.nil_append] at heq
              obtain ⟨hch2, -⟩ := List.cons.inj heq
              exact absurd hch2 hch
          | cons c0 l' =>
              rw [List.cons_append] at heq
              obtain ⟨hc0, heq⟩ := List.cons.inj heq
              have ih := sep_loop_sep_count separator (pos + 1) rest hrest l' r heq
              subst hc0
              simp only [List.filter, hd, List.length_cons]
              omega
      · have hd' : ch.isDigit = false := by simpa using hd
        rw [sep_loop_nondigit separator pos ch rest hd'] at heq
        cases l with
        | nil =>
            simp only [List.nil_append] at heq
            obtain ⟨hch2, -⟩ := List.cons.inj heq
            exact absurd hch2 hch
        | cons c0 l' =>
            rw [List.cons_append] at heq
            obtain ⟨hc0, heq⟩ := List.cons.inj heq
            have ih := sep_loop_sep_count separator pos rest hrest l' r heq
            subst hc0
            simp only [List.filter, hd', List.length_cons]
            omega

lemma head?_ne_of_not_mem {l : List Char} {c : Char} (h : c ∉ l) :
    l.head? ≠ some c := by
  cases l with
  | nil => simp
  | cons a t =>
      simp only [List.head?_cons, ne_eq, Option.some.injEq]
      exact fun ha => h (ha ▸ List.mem_cons_self a t)

/-- The first character of the fractional slice, when it exists, is the
dot the slice was cut at. -/
lemma dropWhile_dot (input : List Char) :
    input.dropWhile (fun ch => ch ≠ '.') = [] ∨
    ∃ rest, input.dropWhile (fun ch => ch ≠ '.') = '.' :: rest := by
  induction input with
  | nil => exact Or.inl rfl
  | cons a t ih =>
      by_cases ha : a = '.'
      · exact Or.inr ⟨t, by simp [List.dropWhile_cons, ha]⟩
      · simpa [List.dropWhile_cons, ha] using ih

/-- C7: grouping never places a separator adjacent to the decimal point
nor at the scan-start of a digit run, symmetrically for the integer part
(scanned right-to-left: its output never ends in a separator, which is
also the position adjacent to the dot) and the fractional part (scanned
left-to-right: its output never starts with a separator, and the position
just after the dot is never a separator); every separator in either part
has at least three digits on its scan side; and non-digit characters pass
through unchanged without advancing the digit counter. -/
theorem separator_placement (input : List Char) (separator : Char) (h : separator ∉ input) :
    separated_float input separator
        = separate_thousands_backward (input.takeWhile (fun ch => ch ≠ '.')) separator ++
          separate_thousands_forward (input.dropWhile (fun ch => ch ≠ '.')) separator ∧
    (separate_thousands_backward (input.takeWhile (fun ch => ch ≠ '.')) separator).getLast?
        ≠ some separator ∧
    (separate_thousands_forward (input.dropWhile (fun ch => ch ≠ '.')) separator).head?
        ≠ some separator ∧
    ((separate_thousands_forward (input.dropWhile (fun ch => ch ≠ '.')) separator).tail).head?
        ≠ some separator ∧
    (∀ l r, separate_thousands_backward (input.takeWhile (fun ch => ch ≠ '.')) separator
        = l ++ separator :: r → 3 ≤ (r.filter (fun c => c.isDigit)).length) ∧
    (∀ l r, separate_thousands_forward (input.dropWhile (fun ch => ch ≠ '.')) separator
        = l ++ separator :: r → 3 ≤ (l.filter (fun c => c.isDigit)).length) ∧
    (∀ (pos : ℕ) (ch : Char) (rest : List Char), ch.isDigit = false →
        sep_loop separator pos (ch :: rest) = ch :: sep_loop separator pos rest) := by
  have hint : separator ∉ input.takeWhile (fun ch => ch ≠ '.') :=
    fun hm => h ((List.takeWhile_prefix _).subset hm)
  have hfrac : separator ∉ input.dropWhile (fun ch => ch ≠ '.') :=
    fun hm => h ((List.dropWhile_suffix _).subset hm)
  have hintrev : separator ∉ (input.takeWhile (fun ch => ch ≠ '.')).reverse := by
    simpa using hint
  refine ⟨rfl, ?_, ?_, ?_, ?_, ?_, ?_⟩
  · unfold separate_thousands_backward
    rw [List.getLast?_reverse, sep_loop_zero_head?]
    exact head?_ne_of_not_mem hintrev
  · unfold separate_thousands_forward
    rw [sep_loop_zero_head?]
    exact head?_ne_of_not_mem hfrac
  · rcases dropWhile_dot input with hdw | ⟨rest, hdw⟩
    · rw [separate_thousands_forward, hdw]
      simp [sep_loop]
    · rw [separate_thousands_forward, hdw,
        sep_loop_nondigit separator 0 '.' rest (by decide), List.tail_cons,
        sep_loop_zero_head?]
      have hrm : separator ∉ rest := by
        rw [hdw] at hfrac
        exact fun hr => hfrac (List.mem_cons_of_mem _ hr)
      exact head?_ne_of_not_mem hrm
  · intro l r heq
    have h2 : sep_loop separator 0 (input.takeWhile (fun ch => ch ≠ '.')).reverse
        = r.reverse ++ separator :: l.reverse := by
      have := congrArg List.reverse heq
      simpa [separate_thousands_backward, List.reverse_append] using this
    have := sep_loop_sep_count separator 0 _ hintrev _ _ h2
    simpa using this
  · intro l r heq
    have := sep_loop_sep_count separator 0 _ hfrac _ _ heq
    simpa using this
  · exact sep_loop_nondigit separator

theorem separator_placement_witness :
    separated_float (String.toList "-1234.5678") '_'
        = separate_thousands_backward ((String.toList "-1234.5678").takeWhile
            (fun ch => ch ≠ '.')) '_' ++
          separate_thousands_forward ((String.toList "-1234.5678").dropWhile
            (fun ch => ch ≠ '.')) '_' ∧
    (separate_thousands_backward ((String.toList "-1234.5678").takeWhile
        (fun ch => ch ≠ '.')) '_').getLast? ≠ some '_' ∧
    (separate_thousands_forward ((String.toList "-1234.5678").dropWhile
        (fun ch => ch ≠ '.')) '_').head? ≠ some '_' ∧
    ((separate_thousands_forward ((String.toList "-1234.5678").dropWhile
        (fun ch => ch ≠ '.')) '_').tail).head? ≠ some '_' ∧
    (∀ l r, separate_thousands_backward ((String.toList "-1234.5678").takeWhile
        (fun ch => ch ≠ '.')) '_' = l ++ '_' :: r →
        3 ≤ (r.filter (fun c => c.isDigit)).length) ∧
    (∀ l r, separate_thousands_forward ((String.toList "-1234.5678").dropWhile
        (fun ch => ch ≠ '.')) '_' = l ++ '_' :: r →
        3 ≤ (l.filter (fun c => c.isDigit)).length) ∧
    (∀ (pos : ℕ) (ch : Char) (rest : List Char), ch.isDigit = false →
        sep_loop '_' pos (ch :: rest) = ch :: sep_loop '_' pos rest) :=
  separator_placement (String.toList "-1234.5678") '_' (by decide)

/-- The binary infix marker appended by every `format_value!` variant in
`src/format.rs`: `"i"` exactly for `Base::B1024` with a non-`Unit`
prefix, otherwise the empty string. -/
def binary_marker (b : Base) (p : Prefix) : List Char :=
  match b with
  | .B1000 => []
  | .B1024 => if p = Prefix.Unit then [] else String.toList "i"

/-- The `format_value!(v, fmt)` variant of `src/format.rs`:
`concat!(fmt, " {}{}")` renders the formatted mantissa text, then a
space, the prefix symbol and the binary marker.  `mantissa_text` stands
for the caller-formatted mantissa string. -/
def format_value_plain (mantissa_text : List Char) (p : Prefix) (b : Base) : List Char :=
  mantissa_text ++ String.toList " " ++ p.symbol ++ binary_marker b p

/-- The `format_value!(v, fmt, groupings: sep)` variant: `"{} {}{}"` over
the grouped mantissa text. -/
def format_value_groupings (mantissa_text : List Char) (separator : Char)
    (p : Prefix) (b : Base) : List Char :=
  separated_float mantissa_text separator ++ String.toList " " ++ p.symbol ++
    binary_marker b p

/-- The `format_value!(v, fmt, groupings: sep, no_unit)` variant:
`"{}{}{}{}"`, where the space before the prefix symbol is emitted only
for a non-`Unit` prefix. -/
def format_value_no_unit (mantissa_text : List Char) (separator : Char)
    (p : Prefix) (b : Base) : List Char :=
  separated_float mantissa_text separator ++
    (if p = Prefix.Unit then [] else String.toList " ") ++ p.symbol ++
    binary_marker b p

/-- C9 (counterexample): the claim says the separating space before the
prefix symbol is omitted whenever the prefix is the `Unit` marker, in
every rendered output of `format_value!`.  But the plain variant always
emits the space: rendering mantissa text `"16.0"` with prefix `Unit` in
base `B1024` yields `"16.0 "` — the space retained before the empty
symbol, no `"i"` — and not `"16.0"`.  (The crate's own test
`format_zero_value` shows the same space: `"result is     0.00 F"`.) -/
theorem format_value_unit_space_not_omitted :
    format_value_plain (String.toList "16.0") Prefix.Unit Base.B1024
        = String.toList "16.0 " ∧
    format_value_plain (String.toList "16.0") Prefix.Unit Base.B1024
        ≠ String.toList "16.0" := by
  constructor <;> decide

/-- C9 (amended): the binary marker `"i"` is appended directly after the
prefix symbol exactly when the base is `B1024` and the prefix is not
`Unit`; the space before the prefix symbol is omitted for `Unit` only in
the `no_unit` (bare-number) variant, while the plain and groupings
variants always emit it; and `Value::new_with(16, B1024, UnitAndAbove)`
stays at `Unit`, so with one decimal and external unit `"B"` it renders
as `"16.0 B"`, not `"16.0 iB"`. -/
theorem format_value_space_and_marker :
    (∀ (b : Base) (p : Prefix),
        (binary_marker b p = String.toList "i" ↔ b = Base.B1024 ∧ p ≠ Prefix.Unit) ∧
        (binary_marker b p = [] ∨ binary_marker b p = String.toList "i")) ∧
    (∀ (m : List Char) (s : Char) (b : Base),
        format_value_no_unit m s Prefix.Unit b = separated_float m s) ∧
    (∀ (m : List Char) (b : Base),
        format_value_plain m Prefix.Unit b = m ++ String.toList " ") ∧
    (∀ (m : List Char) (s : Char) (b : Base),
        format_value_groupings m s Prefix.Unit b
          = separated_float m s ++ String.toList " ") ∧
    Value.new_with 16 Base.B1024 Constraint.UnitAndAbove
        = some { mantissa := 16, pfx := Prefix.Unit, base := Base.B1024 } ∧
    format_value_plain (String.toList "16.0") Prefix.Unit Base.B1024 ++ String.toList "B"
        = String.toList "16.0 B" := by
  refine ⟨?_, ?_, ?_, ?_, ?_, ?_⟩
  · decide
  · intro m s b
    cases b <;> simp [format_value_no_unit, binary_marker, Prefix.symbol]
  · intro m b
    cases b <;> simp [format_value_plain, binary_marker, Prefix.symbol]
  · intro m s b
    cases b <;> simp [format_value_groupings, binary_marker, Prefix.symbol]
  · simp [Value.new_with, Base.integral_exponent_for, Value.closest_prefix_for,
      clampI, Prefix.try_from, Base.pow, Prefix.exponent, Nat.log]
  · decide

instance : IsTrans Prefix (fun p q => p.exponent < q.exponent) :=
  ⟨fun _ _ _ h1 h2 => lt_trans h1 h2⟩

/-- In an ascending list, every member satisfying the cutoff survives
`takeWhile`. -/
lemma mem_takeWhile_of_sorted (e : ℤ) :
    ∀ {l : List Prefix},
      l.Pairwise (fun p q => p.exponent < q.exponent) →
      ∀ {q : Prefix}, q ∈ l → q.exponent ≤ e →
        q ∈ l.takeWhile (fun p => decide (p.exponent ≤ e))
  | [], _, _, hq, _ => absurd hq (List.not_mem_nil _)
  | a :: t, hpw, q, hq, hle => by
      obtain ⟨ha, hpt⟩ := List.pairwise_cons.mp hpw
      rcases List.mem_cons.mp hq with rfl | hqt
      · rw [List.takeWhile_cons_of_pos (by simpa using hle)]
        exact List.mem_cons_self _ _
      · have hae : a.exponent ≤ e := le_of_lt (lt_of_lt_of_le (ha q hqt) hle)
        rw [List.takeWhile_cons_of_pos (by simpa using hae)]
        exact List.mem_cons_of_mem _ (mem_takeWhile_of_sorted e hpt hqt hle)

/-- In an ascending list, every member is bounded by the last element. -/
lemma le_getLast_of_sorted :
    ∀ {l : List Prefix},
      l.Pairwise (fun p q => p.exponent < q.exponent) →
      ∀ {q : Prefix}, q ∈ l → ∀ (hne : l ≠ []), q.exponent ≤ (l.getLast hne).exponent
  | [], _, _, hq, _ => absurd hq (List.not_mem_nil _)
  | [a], _, q, hq, _ => by
      have hqa : q = a := by simpa using hq
      subst hqa
      rfl
  | a :: b :: t, hpw, q, hq, hne => by
      obtain ⟨ha, hpt⟩ := List.pairwise_cons.mp hpw
      rw [List.getLast_cons (List.cons_ne_nil b t)]
      rcases List.mem_cons.mp hq with rfl | hqt
      · exact le_of_lt (ha _ (List.getLast_mem (List.cons_ne_nil b t)))
      · exact le_getLast_of_sorted hpt hqt (List.cons_ne_nil b t)

/-- C4: resolving an exponent under a non-empty ascending `Custom` list
is a floor search: when `e` is below the smallest listed exponent the
smallest (first) listed prefix is returned; otherwise the result is a
listed prefix whose exponent is `≤ e` and maximal among the listed
prefixes with exponent `≤ e`. -/
theorem custom_resolution_floor_search (e : ℤ) (a : Prefix) (rest : List Prefix)
    (hasc : (a :: rest).Chain' (fun p q => p.exponent < q.exponent)) :
    (e < a.exponent →
        Value.closest_prefix_for e (Constraint.Custom (a :: rest)) = some a) ∧
    (a.exponent ≤ e →
        ∃ p, Value.closest_prefix_for e (Constraint.Custom (a :: rest)) = some p ∧
          p ∈ a :: rest ∧ p.exponent ≤ e ∧
          ∀ q ∈ a :: rest, q.exponent ≤ e → q.exponent ≤ p.exponent) := by
  have hpw : (a :: rest).Pairwise (fun p q => p.exponent < q.exponent) :=
    List.chain'_iff_pairwise.mp hasc
  constructor
  · intro hlt
    simp [Value.closest_prefix_for, hlt]
  · intro hle
    have htw : (a :: rest).takeWhile (fun p => decide (p.exponent ≤ e))
        = a :: rest.takeWhile (fun p => decide (p.exponent ≤ e)) :=
      List.takeWhile_cons_of_pos (by simpa using hle)
    have htne : (a :: rest).takeWhile (fun p => decide (p.exponent ≤ e)) ≠ [] := by
      rw [htw]
      exact List.cons_ne_nil _ _
    have hpwt : ((a :: rest).takeWhile
        (fun p => decide (p.exponent ≤ e))).Pairwise
          (fun p q => p.exponent < q.exponent) :=
      List.Pairwise.sublist ((List.takeWhile_prefix _).sublist) hpw
    refine ⟨((a :: rest).takeWhile (fun p => decide (p.exponent ≤ e))).getLast htne,
      ?_, ?_, ?_, ?_⟩
    · simp only [Value.closest_prefix_for, if_neg (not_lt.mpr hle),
        List.getLast?_eq_getLast _ htne, Option.getD_some]
    · exact (List.takeWhile_prefix _).subset (List.getLast_mem htne)
    · have := List.mem_takeWhile_imp (List.getLast_mem htne)
      simpa using this
    · intro q hq hqe
      exact le_getLast_of_sorted hpwt (mem_takeWhile_of_sorted e hpw hq hqe) htne

theorem custom_resolution_floor_search_witness :
    ((-1 : ℤ) < Prefix.Milli.exponent →
        Value.closest_prefix_for (-1) (Constraint.Custom [Prefix.Milli, Prefix.Unit,
          Prefix.Kilo]) = some Prefix.Milli) ∧
    (Prefix.Milli.exponent ≤ (-1 : ℤ) →
        ∃ p, Value.closest_prefix_for (-1) (Constraint.Custom [Prefix.Milli, Prefix.Unit,
            Prefix.Kilo]) = some p ∧
          p ∈ [Prefix.Milli, Prefix.Unit, Prefix.Kilo] ∧ p.exponent ≤ -1 ∧
          ∀ q ∈ [Prefix.Milli, Prefix.Unit, Prefix.Kilo],
            q.exponent ≤ -1 → q.exponent ≤ p.exponent) :=
  custom_resolution_floor_search (-1) Prefix.Milli [Prefix.Unit, Prefix.Kilo]
    (by simp [List.chain'_cons, Prefix.exponent])

end SiScale
